import Mathlib

/-!
Verification of `arsenal/math/pareto.py`.

Coordinates are embedded as rationals `ℚ`: the Python code only ever
*compares* coordinates (no arithmetic is performed on them), and the
finite floats the spec admits form a linearly ordered subfield-fragment
of `ℚ`, so `ℚ` captures the order behaviour of every well-formed input.

The sentinels `float('-inf')` / `float('+inf')` used to initialise
`lastx` / `lasty` are modelled by the `none` state of an
`Option (ℚ × ℚ)`: on the finite inputs the spec admits, `-inf != x`,
`y >= -inf` and `y <= +inf` always hold, which is exactly the behaviour
of the `none` branch below.  The two variables are always written
together in the source, so a single optional pair is a faithful state.
-/

namespace Pareto

/-- `dirGe b a c` : coordinate `a` is at least as good as `c` in the
direction described by flag `b` (`b = true` maximises, `b = false`
minimises).  This is the comparison `y >= lasty` / `y <= lasty` that the
two branches of the Python sweep perform. -/
def dirGe (b : Bool) (a c : ℚ) : Prop :=
  match b with
  | true => c ≤ a
  | false => a ≤ c

instance (b : Bool) (a c : ℚ) : Decidable (dirGe b a c) :=
  match b with
  | true => inferInstanceAs (Decidable (c ≤ a))
  | false => inferInstanceAs (Decidable (a ≤ c))

/-- `dirGt b a c` : `a` is strictly better than `c` per direction `b`. -/
def dirGt (b : Bool) (a c : ℚ) : Prop :=
  dirGe b a c ∧ a ≠ c

instance (b : Bool) (a c : ℚ) : Decidable (dirGt b a c) :=
  inferInstanceAs (Decidable (_ ∧ _))

/-- Glossary dominance: `p` dominates `q` when `p` is at least as good on
both axes (per direction) and the two points differ (hence `p` is
strictly better on at least one axis). -/
def dominates (mX mY : Bool) (p q : ℚ × ℚ) : Prop :=
  dirGe mX p.1 q.1 ∧ dirGe mY p.2 q.2 ∧ p ≠ q

instance (mX mY : Bool) (p q : ℚ × ℚ) : Decidable (dominates mX mY p q) :=
  inferInstanceAs (Decidable (_ ∧ _ ∧ _))

/-- Python's lexicographic comparison `(x1, y1) <= (x2, y2)` on pairs. -/
def lexLe (p q : ℚ × ℚ) : Prop :=
  p.1 < q.1 ∨ (p.1 = q.1 ∧ p.2 ≤ q.2)

instance (p q : ℚ × ℚ) : Decidable (lexLe p q) :=
  inferInstanceAs (Decidable (_ ∨ _))

/-- The ordering realised by `sorted(zip(X, Y), reverse=maxX)`:
descending lexicographic order on the full pair when `maxX`, ascending
otherwise. -/
def pairLe (mX : Bool) (p q : ℚ × ℚ) : Prop :=
  match mX with
  | true => lexLe q p
  | false => lexLe p q

instance (mX : Bool) : DecidableRel (pairLe mX) := fun p q =>
  match mX with
  | true => inferInstanceAs (Decidable (lexLe q p))
  | false => inferInstanceAs (Decidable (lexLe p q))

/-- Python's lexicographic comparison on the triples
`(x, y, index)` built by `pareto_ix`. -/
def lex3Le (p q : ℚ × ℚ × ℕ) : Prop :=
  p.1 < q.1 ∨ (p.1 = q.1 ∧ (p.2.1 < q.2.1 ∨ (p.2.1 = q.2.1 ∧ p.2.2 ≤ q.2.2)))

instance (p q : ℚ × ℚ × ℕ) : Decidable (lex3Le p q) :=
  inferInstanceAs (Decidable (_ ∨ _))

/-- The ordering realised by `sorted(zip(X, Y, range(len(X))), reverse=maxX)`. -/
def tripLe (mX : Bool) (p q : ℚ × ℚ × ℕ) : Prop :=
  match mX with
  | true => lex3Le q p
  | false => lex3Le p q

instance (mX : Bool) : DecidableRel (tripLe mX) := fun p q =>
  match mX with
  | true => inferInstanceAs (Decidable (lex3Le q p))
  | false => inferInstanceAs (Decidable (lex3Le p q))

/-- `sorted(zip(X, Y), reverse=maxX)`.  Python's sort is stable, but on
*values* a stable sort and any other correct sort by the total,
antisymmetric order `pairLe` agree (equal pairs are indistinguishable),
so `insertionSort` is extensionally the same list. -/
def sortPairs (mX : Bool) (l : List (ℚ × ℚ)) : List (ℚ × ℚ) :=
  l.insertionSort (pairLe mX)

/-- `sorted(zip(X, Y, range(len(X))), reverse=maxX)`.  The triples are
pairwise distinct (distinct indices), so the sorted list is the unique
`tripLe`-sorted permutation; stability is irrelevant. -/
def sortTriples (mX : Bool) (l : List (ℚ × ℚ × ℕ)) : List (ℚ × ℚ × ℕ) :=
  l.insertionSort (tripLe mX)

/-- The `for xy in a:` loop of `pareto_frontier`.  The state is
`none` before any point has passed the test (both sentinels), and
`some (lastx, lasty)` afterwards.  A point whose `y` passes the
direction comparison is appended exactly when its `x` differs from
`lastx`, and the state is updated to it regardless. -/
def sweep (mY : Bool) : List (ℚ × ℚ) → Option (ℚ × ℚ) → List (ℚ × ℚ)
  | [], _ => []
  | (x, y) :: rest, none => (x, y) :: sweep mY rest (some (x, y))
  | (x, y) :: rest, some (lx, ly) =>
      if dirGe mY y ly then
        (if lx ≠ x then [(x, y)] else []) ++ sweep mY rest (some (x, y))
      else
        sweep mY rest (some (lx, ly))

/-- The `for xyi in a:` loop of `pareto_ix`: identical control flow to
`sweep`, but appends the stored original index instead of the value. -/
def sweepIx (mY : Bool) : List (ℚ × ℚ × ℕ) → Option (ℚ × ℚ) → List ℕ
  | [], _ => []
  | (x, y, i) :: rest, none => i :: sweepIx mY rest (some (x, y))
  | (x, y, i) :: rest, some (lx, ly) =>
      if dirGe mY y ly then
        (if lx ≠ x then [i] else []) ++ sweepIx mY rest (some (x, y))
      else
        sweepIx mY rest (some (lx, ly))

/-- `pareto_frontier(X, Y, maxX, maxY)`.  The leading
`assert len(X) == len(Y)` is modelled by returning `none`
(`ShapeMismatch`); the empty input returns `some []`. -/
def pareto_frontier (X Y : List ℚ) (mX mY : Bool) : Option (List (ℚ × ℚ)) :=
  if X.length = Y.length then
    if X.length = 0 then some []
    else some (sweep mY (sortPairs mX (X.zip Y)) none)
  else none

/-- `pareto_ix(X, Y, maxX, maxY)`: same algorithm, returning indices. -/
def pareto_ix (X Y : List ℚ) (mX mY : Bool) : Option (List ℕ) :=
  if X.length = Y.length then
    if X.length = 0 then some []
    else some (sweepIx mY (sortTriples mX (X.zip (Y.zip (List.range X.length)))) none)
  else none

end Pareto

namespace Pareto

/-! ### Elementary facts about the per-axis direction comparison -/

theorem dirGe_refl (b : Bool) (a : ℚ) : dirGe b a a := by
  cases b <;> simp [dirGe]

theorem dirGe_total (b : Bool) (a c : ℚ) : dirGe b a c ∨ dirGe b c a := by
  cases b <;> simp [dirGe] <;> exact le_total _ _

theorem dirGe_trans {b : Bool} {a c d : ℚ} (h₁ : dirGe b a c) (h₂ : dirGe b c d) :
    dirGe b a d := by
  cases b <;> simp only [dirGe] at *
  · exact le_trans h₁ h₂
  · exact le_trans h₂ h₁

theorem dirGe_antisymm {b : Bool} {a c : ℚ} (h₁ : dirGe b a c) (h₂ : dirGe b c a) :
    a = c := by
  cases b <;> simp only [dirGe] at *
  · exact le_antisymm h₁ h₂
  · exact le_antisymm h₂ h₁

theorem dirGt_of_not_ge {b : Bool} {a c : ℚ} (h : ¬ dirGe b a c) : dirGt b c a := by
  cases b <;> simp only [dirGe, dirGt, not_le] at *
  · exact ⟨le_of_lt h, ne_of_lt h⟩
  · exact ⟨le_of_lt h, ne_of_gt h⟩

theorem dirGt_ge_trans {b : Bool} {a c d : ℚ} (h₁ : dirGt b a c) (h₂ : dirGe b c d) :
    dirGt b a d :=
  ⟨dirGe_trans h₁.1 h₂, fun e => h₁.2 (dirGe_antisymm h₁.1 (e ▸ h₂))⟩

theorem dirGe_gt_trans {b : Bool} {a c d : ℚ} (h₁ : dirGe b a c) (h₂ : dirGt b c d) :
    dirGt b a d :=
  ⟨dirGe_trans h₁ h₂.1, fun e => h₂.2 (dirGe_antisymm h₂.1 (e ▸ h₁))⟩

theorem not_dirGt_of_ge {b : Bool} {a c : ℚ} (h : dirGe b a c) : ¬ dirGt b c a :=
  fun hc => hc.2 (dirGe_antisymm hc.1 h)

/-! ### The lexicographic sort orders are total, transitive, antisymmetric -/

theorem lexLe_total (p q : ℚ × ℚ) : lexLe p q ∨ lexLe q p := by
  rcases lt_trichotomy p.1 q.1 with h | h | h
  · exact Or.inl (Or.inl h)
  · rcases le_total p.2 q.2 with h2 | h2
    · exact Or.inl (Or.inr ⟨h, h2⟩)
    · exact Or.inr (Or.inr ⟨h.symm, h2⟩)
  · exact Or.inr (Or.inl h)

theorem lexLe_trans {p q r : ℚ × ℚ} (h₁ : lexLe p q) (h₂ : lexLe q r) : lexLe p r := by
  rcases h₁ with h₁ | ⟨e₁, h₁⟩ <;> rcases h₂ with h₂ | ⟨e₂, h₂⟩
  · exact Or.inl (lt_trans h₁ h₂)
  · exact Or.inl (e₂ ▸ h₁)
  · exact Or.inl (e₁ ▸ h₂)
  · exact Or.inr ⟨e₁.trans e₂, le_trans h₁ h₂⟩

theorem lexLe_antisymm {p q : ℚ × ℚ} (h₁ : lexLe p q) (h₂ : lexLe q p) : p = q := by
  obtain ⟨a, b⟩ := p
  obtain ⟨c, d⟩ := q
  rcases h₁ with h₁ | ⟨e₁, h₁⟩ <;> rcases h₂ with h₂ | ⟨e₂, h₂⟩
  · exact absurd h₂ (lt_asymm h₁)
  · exact absurd h₁ (e₂ ▸ lt_irrefl _)
  · exact absurd h₂ (e₁ ▸ lt_irrefl _)
  · simp only [Prod.mk.injEq]
    exact ⟨e₁, le_antisymm h₁ h₂⟩

theorem lex3Le_total (p q : ℚ × ℚ × ℕ) : lex3Le p q ∨ lex3Le q p := by
  rcases lt_trichotomy p.1 q.1 with h | h | h
  · exact Or.inl (Or.inl h)
  · rcases lt_trichotomy p.2.1 q.2.1 with h2 | h2 | h2
    · exact Or.inl (Or.inr ⟨h, Or.inl h2⟩)
    · rcases le_total p.2.2 q.2.2 with h3 | h3
      · exact Or.inl (Or.inr ⟨h, Or.inr ⟨h2, h3⟩⟩)
      · exact Or.inr (Or.inr ⟨h.symm, Or.inr ⟨h2.symm, h3⟩⟩)
    · exact Or.inr (Or.inr ⟨h.symm, Or.inl h2⟩)
  · exact Or.inr (Or.inl h)

theorem lex3Le_trans {p q r : ℚ × ℚ × ℕ} (h₁ : lex3Le p q) (h₂ : lex3Le q r) :
    lex3Le p r := by
  rcases h₁ with h₁ | ⟨e₁, h₁⟩ <;> rcases h₂ with h₂ | ⟨e₂, h₂⟩
  · exact Or.inl (lt_trans h₁ h₂)
  · exact Or.inl (e₂ ▸ h₁)
  · exact Or.inl (e₁ ▸ h₂)
  · refine Or.inr ⟨e₁.trans e₂, ?_⟩
    rcases h₁ with h₁ | ⟨f₁, h₁⟩ <;> rcases h₂ with h₂ | ⟨f₂, h₂⟩
    · exact Or.inl (lt_trans h₁ h₂)
    · exact Or.inl (f₂ ▸ h₁)
    · exact Or.inl (f₁ ▸ h₂)
    · exact Or.inr ⟨f₁.trans f₂, le_trans h₁ h₂⟩

theorem lex3Le_antisymm {p q : ℚ × ℚ × ℕ} (h₁ : lex3Le p q) (h₂ : lex3Le q p) :
    p = q := by
  obtain ⟨a, b, i⟩ := p
  obtain ⟨c, d, j⟩ := q
  rcases h₁ with h₁ | ⟨e₁, h₁⟩ <;> rcases h₂ with h₂ | ⟨e₂, h₂⟩
  · exact absurd h₂ (lt_asymm h₁)
  · exact absurd h₁ (e₂ ▸ lt_irrefl _)
  · exact absurd h₂ (e₁ ▸ lt_irrefl _)
  · simp only [Prod.mk.injEq]
    refine ⟨e₁, ?_⟩
    rcases h₁ with h₁ | ⟨f₁, h₁⟩ <;> rcases h₂ with h₂ | ⟨f₂, h₂⟩
    · exact absurd h₂ (lt_asymm h₁)
    · exact absurd h₁ (f₂ ▸ lt_irrefl _)
    · exact absurd h₂ (f₁ ▸ lt_irrefl _)
    · exact ⟨f₁, le_antisymm h₁ h₂⟩

instance (mX : Bool) : IsTotal (ℚ × ℚ) (pairLe mX) where
  total p q := by
    cases mX <;> simp only [pairLe]
    · exact lexLe_total p q
    · exact lexLe_total q p

instance (mX : Bool) : IsTrans (ℚ × ℚ) (pairLe mX) where
  trans p q r h₁ h₂ := by
    cases mX <;> simp only [pairLe] at *
    · exact lexLe_trans h₁ h₂
    · exact lexLe_trans h₂ h₁

instance (mX : Bool) : IsAntisymm (ℚ × ℚ) (pairLe mX) where
  antisymm p q h₁ h₂ := by
    cases mX <;> simp only [pairLe] at *
    · exact lexLe_antisymm h₁ h₂
    · exact lexLe_antisymm h₂ h₁

instance (mX : Bool) : IsTotal (ℚ × ℚ × ℕ) (tripLe mX) where
  total p q := by
    cases mX <;> simp only [tripLe]
    · exact lex3Le_total p q
    · exact lex3Le_total q p

instance (mX : Bool) : IsTrans (ℚ × ℚ × ℕ) (tripLe mX) where
  trans p q r h₁ h₂ := by
    cases mX <;> simp only [tripLe] at *
    · exact lex3Le_trans h₁ h₂
    · exact lex3Le_trans h₂ h₁

instance (mX : Bool) : IsAntisymm (ℚ × ℚ × ℕ) (tripLe mX) where
  antisymm p q h₁ h₂ := by
    cases mX <;> simp only [tripLe] at *
    · exact lex3Le_antisymm h₁ h₂
    · exact lex3Le_antisymm h₂ h₁

/-- Unfolding `pairLe` through the direction vocabulary: an earlier
point is either strictly better on `x`, or ties on `x` with a `y` at
least as good *in the `x`-direction's sense*. -/
theorem pairLe_iff {mX : Bool} {p q : ℚ × ℚ} :
    pairLe mX p q ↔ (dirGt mX p.1 q.1 ∨ (p.1 = q.1 ∧ dirGe mX p.2 q.2)) := by
  cases mX
  · simp only [pairLe, lexLe, dirGt, dirGe]
    constructor
    · rintro (h | ⟨e, h⟩)
      · exact Or.inl ⟨le_of_lt h, ne_of_lt h⟩
      · exact Or.inr ⟨e, h⟩
    · rintro (⟨h, hne⟩ | ⟨e, h⟩)
      · exact Or.inl (lt_of_le_of_ne h hne)
      · exact Or.inr ⟨e, h⟩
  · simp only [pairLe, lexLe, dirGt, dirGe]
    constructor
    · rintro (h | ⟨e, h⟩)
      · exact Or.inl ⟨le_of_lt h, ne_of_gt h⟩
      · exact Or.inr ⟨e.symm, h⟩
    · rintro (⟨h, hne⟩ | ⟨e, h⟩)
      · exact Or.inl (lt_of_le_of_ne h (Ne.symm hne))
      · exact Or.inr ⟨e.symm, h⟩

theorem pairLe_fst {mX : Bool} {p q : ℚ × ℚ} (h : pairLe mX p q) :
    dirGe mX p.1 q.1 := by
  rcases pairLe_iff.mp h with h | ⟨e, _⟩
  · exact h.1
  · exact e ▸ dirGe_refl _ _

theorem pairLe_not_fst_gt {mX : Bool} {p q : ℚ × ℚ} (h : pairLe mX p q) :
    ¬ dirGt mX q.1 p.1 := by
  rcases pairLe_iff.mp h with h | ⟨e, _⟩
  · exact not_dirGt_of_ge h.1
  · exact fun hc => hc.2 e.symm

theorem pairLe_snd_of_fst_eq {mX : Bool} {p q : ℚ × ℚ} (h : pairLe mX p q)
    (he : p.1 = q.1) : dirGe mX p.2 q.2 := by
  rcases pairLe_iff.mp h with h | ⟨_, h2⟩
  · exact absurd he h.2
  · exact h2

end Pareto

namespace Pareto

/-! ### Structural facts about the sweep -/

/-- The sweep only ever drops points: its output is a sublist of its input. -/
theorem sweep_sublist (mY : Bool) :
    ∀ (l : List (ℚ × ℚ)) (st : Option (ℚ × ℚ)), List.Sublist (sweep mY l st) l := by
  intro l
  induction l with
  | nil => intro st; simp [sweep]
  | cons a rest ih =>
    obtain ⟨x, y⟩ := a
    intro st
    match st with
    | none =>
      simp only [sweep]
      exact (ih (some (x, y))).cons₂ (x, y)
    | some (lx, ly) =>
      simp only [sweep]
      by_cases hpass : dirGe mY y ly
      · rw [if_pos hpass]
        by_cases hk : lx ≠ x
        · rw [if_pos hk, List.singleton_append]
          exact (ih (some (x, y))).cons₂ (x, y)
        · rw [if_neg hk, List.nil_append]
          exact (ih (some (x, y))).cons (x, y)
      · rw [if_neg hpass]
        exact (ih (some (lx, ly))).cons (x, y)

/-- Every point the sweep emits from a `some (lx, ly)` state has a `y`
at least as good (per `mY`) as the state's `ly`: `lasty` only ever
improves. -/
theorem sweep_y_ge_state (mY : Bool) :
    ∀ (l : List (ℚ × ℚ)) (lx ly : ℚ), ∀ f ∈ sweep mY l (some (lx, ly)), dirGe mY f.2 ly := by
  intro l
  induction l with
  | nil => intro lx ly f hf; simp [sweep] at hf
  | cons a rest ih =>
    obtain ⟨x, y⟩ := a
    intro lx ly f hf
    simp only [sweep] at hf
    by_cases hpass : dirGe mY y ly
    · rw [if_pos hpass] at hf
      rcases List.mem_append.mp hf with hf | hf
      · by_cases hk : lx ≠ x
        · rw [if_pos hk, List.mem_singleton] at hf
          subst hf
          exact hpass
        · rw [if_neg hk] at hf
          exact absurd hf (List.not_mem_nil f)
      · exact dirGe_trans (ih x y f hf) hpass
    · rw [if_neg hpass] at hf
      exact ih lx ly f hf

/-- The sweep's output `y`-values are monotone: a later output point has
a `y` at least as good (per `mY`) as any earlier one. -/
theorem sweep_y_mono (mY : Bool) :
    ∀ (l : List (ℚ × ℚ)) (st : Option (ℚ × ℚ)),
      (sweep mY l st).Pairwise (fun f g => dirGe mY g.2 f.2) := by
  intro l
  induction l with
  | nil => intro st; simp [sweep]
  | cons a rest ih =>
    obtain ⟨x, y⟩ := a
    intro st
    match st with
    | none =>
      simp only [sweep]
      exact List.Pairwise.cons (fun g hg => sweep_y_ge_state mY rest x y g hg) (ih (some (x, y)))
    | some (lx, ly) =>
      simp only [sweep]
      by_cases hpass : dirGe mY y ly
      · rw [if_pos hpass]
        by_cases hk : lx ≠ x
        · rw [if_pos hk, List.singleton_append]
          exact List.Pairwise.cons (fun g hg => sweep_y_ge_state mY rest x y g hg)
            (ih (some (x, y)))
        · rw [if_neg hk, List.nil_append]
          exact ih (some (x, y))
      · rw [if_neg hpass]
        exact ih (some (lx, ly))

/-- On a `pairLe mX`-sorted input and from a state whose `lastx` is at
least as good (per `mX`) as every remaining `x`, every output point has
an `x` strictly better than `lastx` would allow being repeated: `lastx`
strictly improves at each append, so output `x`-values are strictly
monotone per direction. -/
theorem sweep_x_strict (mX mY : Bool) :
    ∀ (l : List (ℚ × ℚ)) (lx ly : ℚ), l.Sorted (pairLe mX) →
      (∀ q ∈ l, dirGe mX lx q.1) →
      (∀ f ∈ sweep mY l (some (lx, ly)), dirGt mX lx f.1) ∧
      (sweep mY l (some (lx, ly))).Pairwise (fun f g => dirGt mX f.1 g.1) := by
  intro l
  induction l with
  | nil =>
    intro lx ly _ _
    exact ⟨fun f hf => by simp [sweep] at hf, by simp [sweep]⟩
  | cons a rest ih =>
    obtain ⟨x, y⟩ := a
    intro lx ly hsort hcond
    obtain ⟨hhead, htail⟩ := List.sorted_cons.mp hsort
    have hcondx : dirGe mX lx x := hcond (x, y) (List.mem_cons_self _ _)
    have hcond' : ∀ q ∈ rest, dirGe mX x q.1 := fun q hq => pairLe_fst (hhead q hq)
    have ihxy := ih x y htail hcond'
    simp only [sweep]
    by_cases hpass : dirGe mY y ly
    · rw [if_pos hpass]
      by_cases hk : lx ≠ x
      · rw [if_pos hk, List.singleton_append]
        constructor
        · intro f hf
          rcases List.mem_cons.mp hf with hf | hf
          · subst hf; exact ⟨hcondx, hk⟩
          · exact dirGe_gt_trans hcondx (ihxy.1 f hf)
        · exact List.Pairwise.cons (fun g hg => ihxy.1 g hg) ihxy.2
      · rw [if_neg hk, List.nil_append]
        have hlx : lx = x := not_not.mp hk
        subst hlx
        exact ihxy
    · rw [if_neg hpass]
      exact ih lx ly htail (fun q hq => hcond q (List.mem_cons_of_mem _ hq))

/-- Starting from the sentinel state, the output `x`-values are strictly
monotone in the `mX` direction (in particular pairwise distinct). -/
theorem sweep_x_strict_none (mX mY : Bool) :
    ∀ (l : List (ℚ × ℚ)), l.Sorted (pairLe mX) →
      (sweep mY l none).Pairwise (fun f g => dirGt mX f.1 g.1) := by
  intro l hsort
  match l with
  | [] => simp [sweep]
  | (x, y) :: rest =>
    obtain ⟨hhead, htail⟩ := List.sorted_cons.mp hsort
    have h := sweep_x_strict mX mY rest x y htail (fun q hq => pairLe_fst (hhead q hq))
    simp only [sweep]
    exact List.Pairwise.cons (fun g hg => h.1 g hg) h.2

/-- No output point of the sweep (on sorted input) is strictly worse on
*both* axes than any input point: the strictly-better point would have
been processed first and forced `lasty` past the output point's `y`. -/
theorem sweep_no_strict_dom (mX mY : Bool) :
    ∀ (l : List (ℚ × ℚ)) (st : Option (ℚ × ℚ)), l.Sorted (pairLe mX) →
      ∀ f ∈ sweep mY l st, ∀ p ∈ l, ¬ (dirGt mX p.1 f.1 ∧ dirGt mY p.2 f.2) := by
  intro l
  induction l with
  | nil => intro st _ f hf; simp [sweep] at hf
  | cons a rest ih =>
    obtain ⟨x, y⟩ := a
    intro st hsort f hf p hp
    obtain ⟨hhead, htail⟩ := List.sorted_cons.mp hsort
    -- the head point itself is never strictly dominated by anything in the list
    have head_self : ∀ q ∈ (x, y) :: rest, ¬ (dirGt mX q.1 x ∧ dirGt mY q.2 y) := by
      intro q hq hc
      rcases List.mem_cons.mp hq with hq | hq
      · subst hq; exact hc.1.2 rfl
      · exact pairLe_not_fst_gt (hhead q hq) hc.1
    -- anything emitted after the head passed has a `y` at least as good as the head's
    have tail_vs_head : ∀ g ∈ sweep mY rest (some (x, y)),
        ¬ (dirGt mX x g.1 ∧ dirGt mY y g.2) := by
      intro g hg hc
      exact not_dirGt_of_ge (sweep_y_ge_state mY rest x y g hg) hc.2
    match st with
    | none =>
      simp only [sweep] at hf
      rcases List.mem_cons.mp hf with hf | hf
      · subst hf
        exact head_self p hp
      · rcases List.mem_cons.mp hp with hp | hp
        · subst hp; exact tail_vs_head f hf
        · exact ih (some (x, y)) htail f hf p hp
    | some (lx, ly) =>
      simp only [sweep] at hf
      by_cases hpass : dirGe mY y ly
      · rw [if_pos hpass] at hf
        rcases List.mem_append.mp hf with hf | hf
        · by_cases hk : lx ≠ x
          · rw [if_pos hk, List.mem_singleton] at hf
            subst hf
            exact head_self p hp
          · rw [if_neg hk] at hf
            exact absurd hf (List.not_mem_nil f)
        · rcases List.mem_cons.mp hp with hp | hp
          · subst hp; exact tail_vs_head f hf
          · exact ih (some (x, y)) htail f hf p hp
      · rw [if_neg hpass] at hf
        rcases List.mem_cons.mp hp with hp | hp
        · subst hp
          intro hc
          have h1 : dirGe mY f.2 ly := sweep_y_ge_state mY rest lx ly f hf
          have h2 : dirGt mY ly y := dirGt_of_not_ge hpass
          exact not_dirGt_of_ge (dirGe_gt_trans h1 h2).1 hc.2
        · exact ih (some (lx, ly)) htail f hf p hp

end Pareto

namespace Pareto

/-! ### Coverage: with matched direction flags every input point is
weakly dominated by some output point -/

/-- With a single direction flag `b` on both axes, processing a
`pairLe b`-sorted list from a state `(lx, ly)` that sorts before every
remaining point: each remaining point is weakly dominated either by an
output point or by the state itself. -/
theorem sweep_cover (b : Bool) :
    ∀ (l : List (ℚ × ℚ)) (lx ly : ℚ), l.Sorted (pairLe b) →
      (∀ q ∈ l, pairLe b (lx, ly) q) →
      ∀ p ∈ l, (∃ f ∈ sweep b l (some (lx, ly)), dirGe b f.1 p.1 ∧ dirGe b f.2 p.2)
               ∨ (dirGe b lx p.1 ∧ dirGe b ly p.2) := by
  intro l
  induction l with
  | nil => intro lx ly _ _ p hp; simp at hp
  | cons a rest ih =>
    obtain ⟨x, y⟩ := a
    intro lx ly hsort hstate p hp
    obtain ⟨hhead, htail⟩ := List.sorted_cons.mp hsort
    have hstate_head : pairLe b (lx, ly) (x, y) := hstate (x, y) (List.mem_cons_self _ _)
    have hstate' : ∀ q ∈ rest, pairLe b (x, y) q := hhead
    simp only [sweep]
    by_cases hpass : dirGe b y ly
    · rw [if_pos hpass]
      by_cases hk : lx ≠ x
      · rw [if_pos hk, List.singleton_append]
        rcases List.mem_cons.mp hp with hp | hp
        · subst hp
          exact Or.inl ⟨(x, y), List.mem_cons_self _ _, dirGe_refl b x, dirGe_refl b y⟩
        · rcases ih x y htail hstate' p hp with ⟨f, hf, hcov⟩ | hcov
          · exact Or.inl ⟨f, List.mem_cons_of_mem _ hf, hcov⟩
          · exact Or.inl ⟨(x, y), List.mem_cons_self _ _, hcov⟩
      · rw [if_neg hk, List.nil_append]
        have hlx : lx = x := not_not.mp hk
        have hly : dirGe b ly y :=
          pairLe_snd_of_fst_eq hstate_head (by simpa using hlx)
        have hyly : y = ly := dirGe_antisymm hpass hly
        rcases List.mem_cons.mp hp with hp | hp
        · subst hp
          exact Or.inr ⟨hlx ▸ dirGe_refl b x, hly⟩
        · rcases ih x y htail hstate' p hp with ⟨f, hf, hcov⟩ | hcov
          · exact Or.inl ⟨f, hf, hcov⟩
          · exact Or.inr ⟨hlx ▸ hcov.1, hyly ▸ hcov.2⟩
    · rw [if_neg hpass]
      rcases List.mem_cons.mp hp with hp | hp
      · subst hp
        exact Or.inr ⟨pairLe_fst hstate_head, (dirGt_of_not_ge hpass).1⟩
      · exact ih lx ly htail (fun q hq => hstate q (List.mem_cons_of_mem _ hq)) p hp

/-- With matched flags, every point of a sorted list is weakly dominated
by some point the sweep (started from the sentinel state) outputs. -/
theorem sweep_cover_none (b : Bool) :
    ∀ (l : List (ℚ × ℚ)), l.Sorted (pairLe b) →
      ∀ p ∈ l, ∃ f ∈ sweep b l none, dirGe b f.1 p.1 ∧ dirGe b f.2 p.2 := by
  intro l hsort p hp
  match l with
  | [] => simp at hp
  | (x, y) :: rest =>
    obtain ⟨hhead, htail⟩ := List.sorted_cons.mp hsort
    simp only [sweep]
    rcases List.mem_cons.mp hp with hp | hp
    · subst hp
      exact ⟨(x, y), List.mem_cons_self _ _, dirGe_refl b x, dirGe_refl b y⟩
    · rcases sweep_cover b rest x y htail hhead p hp with ⟨f, hf, hcov⟩ | hcov
      · exact ⟨f, List.mem_cons_of_mem _ hf, hcov⟩
      · exact ⟨(x, y), List.mem_cons_self _ _, hcov⟩

/-! ### Fixed point: re-sweeping a staircase leaves it unchanged -/

/-- A list whose adjacent points have pairwise distinct `x` and
`mY`-improving `y` is passed through unchanged by the sweep started at
its (already emitted) predecessor. -/
theorem sweep_fixed (mY : Bool) :
    ∀ (l : List (ℚ × ℚ)) (a : ℚ × ℚ),
      List.Chain' (fun f g => f.1 ≠ g.1 ∧ dirGe mY g.2 f.2) (a :: l) →
      sweep mY l (some a) = l := by
  intro l
  induction l with
  | nil => intro a _; simp [sweep]
  | cons q rest ih =>
    obtain ⟨qx, qy⟩ := q
    intro a hchain
    obtain ⟨ax, ay⟩ := a
    rw [List.chain'_cons] at hchain
    obtain ⟨⟨hne, hge⟩, hchain⟩ := hchain
    simp only [sweep]
    rw [if_pos hge, if_pos hne, List.singleton_append]
    rw [ih (qx, qy) hchain]

/-- Starting from the sentinel state on such a staircase returns it unchanged. -/
theorem sweep_fixed_none (mY : Bool) :
    ∀ (l : List (ℚ × ℚ)),
      List.Chain' (fun f g => f.1 ≠ g.1 ∧ dirGe mY g.2 f.2) l →
      sweep mY l none = l := by
  intro l hchain
  match l with
  | [] => simp [sweep]
  | a :: rest =>
    obtain ⟨x, y⟩ := a
    simp only [sweep]
    rw [sweep_fixed mY rest (x, y) hchain]

end Pareto

namespace Pareto

/-! ### The index variant refines the value variant -/

/-- Dropping the index component turns the triple order into the pair order. -/
theorem lexLe_of_lex3Le {p q : ℚ × ℚ × ℕ} (h : lex3Le p q) :
    lexLe (p.1, p.2.1) (q.1, q.2.1) := by
  rcases h with h | ⟨e, h | ⟨e2, _⟩⟩
  · exact Or.inl h
  · exact Or.inr ⟨e, le_of_lt h⟩
  · exact Or.inr ⟨e, le_of_eq e2⟩

theorem pairLe_of_tripLe {mX : Bool} {p q : ℚ × ℚ × ℕ} (h : tripLe mX p q) :
    pairLe mX (p.1, p.2.1) (q.1, q.2.1) := by
  cases mX <;> simp only [tripLe, pairLe] at *
  · exact lexLe_of_lex3Le h
  · exact lexLe_of_lex3Le h

/-- Sorting the triples and then projecting away the index gives the
same list as projecting first and sorting the pairs. -/
theorem sortTriples_map_proj (mX : Bool) (Z : List (ℚ × ℚ × ℕ)) :
    (sortTriples mX Z).map (fun t => (t.1, t.2.1)) =
      sortPairs mX (Z.map (fun t => (t.1, t.2.1))) := by
  apply List.eq_of_perm_of_sorted (r := pairLe mX)
  · exact ((List.perm_insertionSort (tripLe mX) Z).map _).trans
      (List.perm_insertionSort (pairLe mX) _).symm
  · exact List.Pairwise.map _ (fun a b h => pairLe_of_tripLe h)
      (List.sorted_insertionSort (tripLe mX) Z)
  · exact List.sorted_insertionSort (pairLe mX) _

/-- Projecting the zipped triples `(x, y, index)` back to pairs recovers
`zip X Y`. -/
theorem zip3_map_proj :
    ∀ (X Y : List ℚ) (R : List ℕ), X.length = Y.length → Y.length ≤ R.length →
      (X.zip (Y.zip R)).map (fun t : ℚ × ℚ × ℕ => (t.1, t.2.1)) = X.zip Y := by
  intro X
  induction X with
  | nil => intro Y R _ _; simp
  | cons x xs ih =>
    intro Y R hlen hR
    match Y, R with
    | [], _ => simp at hlen
    | _ :: _, [] => simp at hR
    | y :: ys, r :: rs =>
      simp only [List.zip_cons_cons, List.map_cons]
      rw [ih ys rs (by simpa using hlen) (by simpa using hR)]

/-- Each sorted triple records the coordinates found at its index. -/
theorem mem_sortTriples_lookup (X Y : List ℚ) (mX : Bool) (h : X.length = Y.length) :
    ∀ t ∈ sortTriples mX (X.zip (Y.zip (List.range X.length))),
      X.getD t.2.2 0 = t.1 ∧ Y.getD t.2.2 0 = t.2.1 := by
  intro t ht
  have ht' : t ∈ X.zip (Y.zip (List.range X.length)) :=
    (List.perm_insertionSort (tripLe mX) _).subset ht
  obtain ⟨k, hk, he⟩ := List.mem_iff_getElem.mp ht'
  have hkX : k < X.length := by
    simp only [List.length_zip, List.length_range, ← h, min_self] at hk
    exact hk
  have hkY : k < Y.length := h ▸ hkX
  have hx : (X.zip (Y.zip (List.range X.length)))[k] = (X[k], Y[k], k) := by
    simp [List.getElem_zip, List.getElem_range]
  rw [hx] at he
  subst he
  exact ⟨List.getD_eq_getElem X 0 hkX, List.getD_eq_getElem Y 0 hkY⟩

/-- The index sweep, looked up through any table consistent with the
triples, is the value sweep of the projected list. -/
theorem sweepIx_map_eq (mY : Bool) (lk : ℕ → ℚ × ℚ) :
    ∀ (l : List (ℚ × ℚ × ℕ)) (st : Option (ℚ × ℚ)),
      (∀ t ∈ l, lk t.2.2 = (t.1, t.2.1)) →
      (sweepIx mY l st).map lk = sweep mY (l.map (fun t => (t.1, t.2.1))) st := by
  intro l
  induction l with
  | nil => intro st _; simp [sweep, sweepIx]
  | cons a rest ih =>
    obtain ⟨x, y, i⟩ := a
    intro st hlk
    have hi : lk i = (x, y) := hlk (x, y, i) (List.mem_cons_self _ _)
    have hlk' : ∀ t ∈ rest, lk t.2.2 = (t.1, t.2.1) :=
      fun t ht => hlk t (List.mem_cons_of_mem _ ht)
    match st with
    | none =>
      simp only [sweepIx, sweep, List.map_cons]
      rw [hi, ih (some (x, y)) hlk']
    | some (lx, ly) =>
      simp only [sweepIx, sweep, List.map_cons]
      by_cases hpass : dirGe mY y ly
      · rw [if_pos hpass, if_pos hpass, List.map_append]
        by_cases hk : lx ≠ x
        · rw [if_pos hk, if_pos hk]
          simp only [List.map_cons, List.map_nil]
          rw [hi, ih (some (x, y)) hlk']
        · rw [if_neg hk, if_neg hk]
          simp only [List.map_nil]
          rw [ih (some (x, y)) hlk']
      · rw [if_neg hpass, if_neg hpass]
        exact ih (some (lx, ly)) hlk'

end Pareto

namespace Pareto

/-! ### The `Pareto` query layer

The `Pareto` class wraps a DataFrame with two selected columns.  A
DataFrame column of floats is modelled as a `List PFloat`, where
`PFloat` distinguishes the non-finite values (`nan`, `±inf`) that
`np.isfinite` rejects from finite values (rationals, as above). -/

/-- A Python float: NaN, one of the two infinities, or a finite value. -/
inductive PFloat where
  | nan : PFloat
  | inf : PFloat
  | ninf : PFloat
  | fin : ℚ → PFloat
deriving DecidableEq

/-- `np.isfinite`: true exactly on finite values. -/
def PFloat.isFinite : PFloat → Bool
  | PFloat.fin _ => true
  | _ => false

/-- The rational carried by a finite `PFloat` (defaulting on non-finite
values, which construction has already ruled out). -/
def PFloat.val : PFloat → ℚ
  | PFloat.fin q => q
  | _ => 0

/-- The state held by a constructed `Pareto` object: the two selected
columns (`self.df[self.xcol]`, `self.df[self.ycol]`) and the
`self.frontier` index list computed by `pareto_ix` with default flags. -/
structure Table where
  xs : List ℚ
  ys : List ℚ
  frontier : Option (List ℕ)

/-- `Pareto.__init__(df, xcol, ycol)`: computes `self.frontier` and
asserts `np.isfinite(df[xcol]).all() and np.isfinite(df[ycol]).all()`.
The failed assertion (`NonFiniteInput`) is modelled as `none`; queries
are only reachable on a constructed table, whose coordinates are then
all finite. -/
def init (xs ys : List PFloat) : Option Table :=
  if xs.all PFloat.isFinite && ys.all PFloat.isFinite then
    some ⟨xs.map PFloat.val, ys.map PFloat.val,
          pareto_ix (xs.map PFloat.val) (ys.map PFloat.val) true true⟩
  else none

/-- `s[self.ycol].argmax()` over a nonempty row list seeded with its
first row: the first row attaining the maximal `y`. -/
def argmaxY (p : ℚ × ℚ) (l : List (ℚ × ℚ)) : ℚ × ℚ :=
  l.foldl (fun best q => if best.2 < q.2 then q else best) p

/-- `s[self.xcol].argmin()` over a nonempty row list seeded with its
first row: the first row attaining the minimal `x`. -/
def argminX (p : ℚ × ℚ) (l : List (ℚ × ℚ)) : ℚ × ℚ :=
  l.foldl (fun best q => if q.1 < best.1 then q else best) p

/-- `Pareto.lookup_x(x)`: filter the rows to those with `x`-column
`<= x`; if empty return NaN (`none`), else the `y` of the row found by
`argmax` over the `y`-column. -/
def lookup_x (P : Table) (x : ℚ) : Option ℚ :=
  match (P.xs.zip P.ys).filter (fun p => decide (p.1 ≤ x)) with
  | [] => none
  | p :: rest => some (argmaxY p rest).2

/-- `Pareto.lookup_y(y)`: filter the rows to those with `y`-column
`>= y`; if empty return NaN (`none`), else the `x` of the row found by
`argmin` over the `x`-column. -/
def lookup_y (P : Table) (y : ℚ) : Option ℚ :=
  match (P.xs.zip P.ys).filter (fun p => decide (y ≤ p.2)) with
  | [] => none
  | p :: rest => some (argminX p rest).1

/-- The seeded fold keeps a row of the seed-or-list whose `y` is maximal. -/
theorem argmaxY_spec :
    ∀ (l : List (ℚ × ℚ)) (p : ℚ × ℚ),
      (argmaxY p l = p ∨ argmaxY p l ∈ l) ∧
      p.2 ≤ (argmaxY p l).2 ∧ ∀ q ∈ l, q.2 ≤ (argmaxY p l).2 := by
  intro l
  induction l with
  | nil =>
    intro p
    exact ⟨Or.inl rfl, le_refl _, fun q hq => absurd hq (List.not_mem_nil q)⟩
  | cons a t ih =>
    intro p
    by_cases hlt : p.2 < a.2
    · have hfold : argmaxY p (a :: t) = argmaxY a t := by
        simp only [argmaxY, List.foldl_cons, if_pos hlt]
      obtain ⟨hmem, hseed, hall⟩ := ih a
      rw [hfold]
      refine ⟨?_, ?_, ?_⟩
      · rcases hmem with hmem | hmem
        · exact Or.inr (by rw [hmem]; exact List.mem_cons_self _ _)
        · exact Or.inr (List.mem_cons_of_mem _ hmem)
      · exact le_trans (le_of_lt hlt) hseed
      · intro q hq
        rcases List.mem_cons.mp hq with hq | hq
        · subst hq; exact hseed
        · exact hall q hq
    · have hfold : argmaxY p (a :: t) = argmaxY p t := by
        simp only [argmaxY, List.foldl_cons, if_neg hlt]
      obtain ⟨hmem, hseed, hall⟩ := ih p
      rw [hfold]
      refine ⟨?_, ?_, ?_⟩
      · rcases hmem with hmem | hmem
        · exact Or.inl hmem
        · exact Or.inr (List.mem_cons_of_mem _ hmem)
      · exact hseed
      · intro q hq
        rcases List.mem_cons.mp hq with hq | hq
        · subst hq; exact le_trans (le_of_not_lt hlt) hseed
        · exact hall q hq

/-- The seeded fold keeps a row of the seed-or-list whose `x` is minimal. -/
theorem argminX_spec :
    ∀ (l : List (ℚ × ℚ)) (p : ℚ × ℚ),
      (argminX p l = p ∨ argminX p l ∈ l) ∧
      (argminX p l).1 ≤ p.1 ∧ ∀ q ∈ l, (argminX p l).1 ≤ q.1 := by
  intro l
  induction l with
  | nil =>
    intro p
    exact ⟨Or.inl rfl, le_refl _, fun q hq => absurd hq (List.not_mem_nil q)⟩
  | cons a t ih =>
    intro p
    by_cases hlt : a.1 < p.1
    · have hfold : argminX p (a :: t) = argminX a t := by
        simp only [argminX, List.foldl_cons, if_pos hlt]
      obtain ⟨hmem, hseed, hall⟩ := ih a
      rw [hfold]
      refine ⟨?_, ?_, ?_⟩
      · rcases hmem with hmem | hmem
        · exact Or.inr (by rw [hmem]; exact List.mem_cons_self _ _)
        · exact Or.inr (List.mem_cons_of_mem _ hmem)
      · exact le_trans hseed (le_of_lt hlt)
      · intro q hq
        rcases List.mem_cons.mp hq with hq | hq
        · subst hq; exact hseed
        · exact hall q hq
    · have hfold : argminX p (a :: t) = argminX p t := by
        simp only [argminX, List.foldl_cons, if_neg hlt]
      obtain ⟨hmem, hseed, hall⟩ := ih p
      rw [hfold]
      refine ⟨?_, ?_, ?_⟩
      · rcases hmem with hmem | hmem
        · exact Or.inl hmem
        · exact Or.inr (List.mem_cons_of_mem _ hmem)
      · exact hseed
      · intro q hq
        rcases List.mem_cons.mp hq with hq | hq
        · subst hq; exact le_trans hseed (le_of_not_lt hlt)
        · exact hall q hq

end Pareto

namespace Pareto

/-- Destructure a successful `pareto_frontier` call. -/
theorem pareto_frontier_some_cases {X Y : List ℚ} {mX mY : Bool} {F : List (ℚ × ℚ)}
    (h : pareto_frontier X Y mX mY = some F) :
    X.length = Y.length ∧
      ((X.length = 0 ∧ F = []) ∨
       (X.length ≠ 0 ∧ F = sweep mY (sortPairs mX (X.zip Y)) none)) := by
  unfold pareto_frontier at h
  by_cases h1 : X.length = Y.length
  · rw [if_pos h1] at h
    by_cases h2 : X.length = 0
    · rw [if_pos h2] at h
      exact ⟨h1, Or.inl ⟨h2, (Option.some.inj h).symm⟩⟩
    · rw [if_neg h2] at h
      exact ⟨h1, Or.inr ⟨h2, (Option.some.inj h).symm⟩⟩
  · rw [if_neg h1] at h
    exact absurd h (by simp)

/-- C4: for every equal-length finite `X, Y` and flags, the frontier
returned by `pareto_frontier` is strictly monotone in `x` per the `mX`
direction (hence no two output points share an `x`), and along the
output the `y`-values are monotone in the complementary sense: each
later point's `y` is at least as good per `mY` — the staircase shape. -/
theorem pareto_frontier_staircase (X Y : List ℚ) (mX mY : Bool) (F : List (ℚ × ℚ))
    (h : pareto_frontier X Y mX mY = some F) :
    F.Pairwise (fun f g => dirGt mX f.1 g.1 ∧ dirGe mY g.2 f.2) := by
  obtain ⟨hlen, hcase⟩ := pareto_frontier_some_cases h
  rcases hcase with ⟨_, rfl⟩ | ⟨_, rfl⟩
  · exact List.Pairwise.nil
  · exact (sweep_x_strict_none mX mY _ (List.sorted_insertionSort _ _)).and
      (sweep_y_mono mY (sortPairs mX (X.zip Y)) none)

theorem pareto_frontier_staircase_witness :
    List.Pairwise (fun f g => dirGt true f.1 g.1 ∧ dirGe true g.2 f.2)
      [((3 : ℚ), (1 : ℚ)), (2, 2), (1, 3)] :=
  pareto_frontier_staircase [1, 2, 3] [3, 2, 1] true true
    [(3, 1), (2, 2), (1, 3)] (by decide)

/-- C2 counterexample: with `maxX = true, maxY = false` on
`X = [2, 1, 1], Y = [5, 3, 5]` the output contains `(1, 5)`, which is
dominated (glossary sense) by the input point `(1, 3)`; moreover the
`x = 1` tie group is represented in the output by a point that does
*not* have the best `y` of the group. -/
theorem pareto_frontier_dominated_output_cex :
    pareto_frontier [2, 1, 1] [5, 3, 5] true false = some [(2, 5), (1, 5)] ∧
    ((1 : ℚ), (5 : ℚ)) ∈ [((2 : ℚ), (5 : ℚ)), (1, 5)] ∧
    ((1 : ℚ), (3 : ℚ)) ∈ List.zip [(2 : ℚ), 1, 1] [(5 : ℚ), 3, 5] ∧
    dominates true false ((1 : ℚ), (3 : ℚ)) ((1 : ℚ), (5 : ℚ)) := by
  decide

/-- C2 (amended): no output point of `pareto_frontier` is *strictly*
dominated on both axes by any input point (an output point may still be
dominated through an equal coordinate), and no two output points share
an `x`-value, so each `x`-tie group contributes at most one output
point. -/
theorem pareto_frontier_no_strict_domination (X Y : List ℚ) (mX mY : Bool)
    (F : List (ℚ × ℚ)) (h : pareto_frontier X Y mX mY = some F) :
    (∀ f ∈ F, ∀ p ∈ X.zip Y, ¬ (dirGt mX p.1 f.1 ∧ dirGt mY p.2 f.2)) ∧
    F.Pairwise (fun f g => f.1 ≠ g.1) := by
  obtain ⟨hlen, hcase⟩ := pareto_frontier_some_cases h
  rcases hcase with ⟨_, rfl⟩ | ⟨_, rfl⟩
  · exact ⟨fun f hf => absurd hf (List.not_mem_nil f), List.Pairwise.nil⟩
  · constructor
    · intro f hf p hp
      have hp' : p ∈ sortPairs mX (X.zip Y) :=
        (List.perm_insertionSort (pairLe mX) _).symm.subset hp
      exact sweep_no_strict_dom mX mY _ none (List.sorted_insertionSort _ _) f hf p hp'
    · exact (sweep_x_strict_none mX mY _ (List.sorted_insertionSort _ _)).imp
        (fun h => h.2)

theorem pareto_frontier_no_strict_domination_witness :
    (∀ f ∈ [((2 : ℚ), (5 : ℚ)), (1, 5)], ∀ p ∈ List.zip [(2 : ℚ), 1, 1] [(5 : ℚ), 3, 5],
      ¬ (dirGt true p.1 f.1 ∧ dirGt false p.2 f.2)) ∧
    List.Pairwise (fun f g : ℚ × ℚ => f.1 ≠ g.1) [((2 : ℚ), (5 : ℚ)), (1, 5)] :=
  pareto_frontier_no_strict_domination [2, 1, 1] [5, 3, 5] true false
    [(2, 5), (1, 5)] (by decide)

/-- C1 counterexample: with mixed flags `maxX = true, maxY = false` on
`X = [1, 1], Y = [3, 5]` the frontier is `[(1, 5)]`, and the input point
`(1, 3)` is not (even weakly) dominated by any frontier point. -/
theorem pareto_frontier_cover_fails_mixed :
    pareto_frontier [1, 1] [3, 5] true false = some [(1, 5)] ∧
    ((1 : ℚ), (3 : ℚ)) ∈ List.zip [(1 : ℚ), 1] [(3 : ℚ), 5] ∧
    ∀ f ∈ [((1 : ℚ), (5 : ℚ))], ¬ (dirGe true f.1 1 ∧ dirGe false f.2 3) := by
  decide

/-- C1 (amended): when the two direction flags agree, every input point
is weakly dominated (at least as good on both axes, reflexively) by some
point of the returned frontier.  (With mixed flags this can fail.) -/
theorem pareto_frontier_covers_matched (X Y : List ℚ) (b : Bool) (F : List (ℚ × ℚ))
    (h : pareto_frontier X Y b b = some F) :
    ∀ p ∈ X.zip Y, ∃ f ∈ F, dirGe b f.1 p.1 ∧ dirGe b f.2 p.2 := by
  obtain ⟨hlen, hcase⟩ := pareto_frontier_some_cases h
  rcases hcase with ⟨h0, rfl⟩ | ⟨h0, rfl⟩
  · intro p hp
    rw [List.length_eq_zero.mp h0] at hp
    simp at hp
  · intro p hp
    have hp' : p ∈ sortPairs b (X.zip Y) :=
      (List.perm_insertionSort (pairLe b) _).symm.subset hp
    exact sweep_cover_none b _ (List.sorted_insertionSort _ _) p hp'

theorem pareto_frontier_covers_matched_witness :
    ∃ f ∈ [((2 : ℚ), (4 : ℚ))], dirGe true f.1 1 ∧ dirGe true f.2 3 :=
  pareto_frontier_covers_matched [1, 2] [3, 4] true [(2, 4)] (by decide)
    (1, 3) (by decide)

/-- C8: both functions fail (`ShapeMismatch`, modelled as `none`)
exactly when the coordinate lists differ in length, and the empty input
yields an empty frontier rather than an error. -/
theorem pareto_shape_mismatch_spec (X Y : List ℚ) (mX mY : Bool) :
    ((pareto_frontier X Y mX mY = none) ↔ X.length ≠ Y.length) ∧
    ((pareto_ix X Y mX mY = none) ↔ X.length ≠ Y.length) ∧
    pareto_frontier [] [] mX mY = some [] ∧
    pareto_ix [] [] mX mY = some [] := by
  refine ⟨?_, ?_, rfl, rfl⟩
  · unfold pareto_frontier
    by_cases h : X.length = Y.length
    · rw [if_pos h]
      constructor
      · intro hh
        split at hh <;> simp at hh
      · intro hh
        exact absurd h hh
    · rw [if_neg h]
      simp [h]
  · unfold pareto_ix
    by_cases h : X.length = Y.length
    · rw [if_pos h]
      constructor
      · intro hh
        split at hh <;> simp at hh
      · intro hh
        exact absurd h hh
    · rw [if_neg h]
      simp [h]

end Pareto

namespace Pareto

/-- Zipping the two projections of a pair list recovers the list. -/
theorem zip_map_fst_snd_self (l : List (ℚ × ℚ)) :
    (l.map Prod.fst).zip (l.map Prod.snd) = l := by
  induction l with
  | nil => rfl
  | cons a t ih =>
    obtain ⟨x, y⟩ := a
    simp only [List.map_cons, List.zip_cons_cons, ih]

/-- C5: `pareto_frontier` is idempotent — applied to the coordinate
projections of its own output (same flags) it returns that output
unchanged. -/
theorem pareto_frontier_idempotent (X Y : List ℚ) (mX mY : Bool) (F : List (ℚ × ℚ))
    (h : pareto_frontier X Y mX mY = some F) :
    pareto_frontier (F.map Prod.fst) (F.map Prod.snd) mX mY = some F := by
  obtain ⟨hlen, hcase⟩ := pareto_frontier_some_cases h
  rcases hcase with ⟨h0, rfl⟩ | ⟨h0, hF⟩
  · rfl
  · have hsortedF : F.Sorted (pairLe mX) := by
      rw [hF]
      exact List.Pairwise.sublist (sweep_sublist mY _ none)
        (List.sorted_insertionSort _ _)
    have hchain : List.Chain' (fun f g => f.1 ≠ g.1 ∧ dirGe mY g.2 f.2) F := by
      apply List.Pairwise.chain'
      have hx := sweep_x_strict_none mX mY (sortPairs mX (X.zip Y))
        (List.sorted_insertionSort _ _)
      have hy := sweep_y_mono mY (sortPairs mX (X.zip Y)) none
      rw [hF]
      exact (hx.and hy).imp (fun h => ⟨h.1.2, h.2⟩)
    unfold pareto_frontier
    rw [if_pos (by simp)]
    by_cases hF0 : (F.map Prod.fst).length = 0
    · rw [if_pos hF0]
      have hFnil : F = [] := by simpa using hF0
      rw [hFnil]
    · rw [if_neg hF0, zip_map_fst_snd_self, sortPairs,
        List.Sorted.insertionSort_eq hsortedF, sweep_fixed_none mY F hchain]

theorem pareto_frontier_idempotent_witness :
    pareto_frontier (List.map Prod.fst [((2 : ℚ), (4 : ℚ))])
      (List.map Prod.snd [((2 : ℚ), (4 : ℚ))]) true true = some [(2, 4)] :=
  pareto_frontier_idempotent [1, 2] [3, 4] true true [(2, 4)] (by decide)

/-- C10: the value output of `pareto_frontier` only depends on the
multiset of input points — permuting `X` and `Y` simultaneously leaves
the returned list unchanged. -/
theorem pareto_frontier_perm_invariant (X Y X' Y' : List ℚ) (mX mY : Bool)
    (hXY : X.length = Y.length) (hXY' : X'.length = Y'.length)
    (hperm : (X.zip Y).Perm (X'.zip Y')) :
    pareto_frontier X Y mX mY = pareto_frontier X' Y' mX mY := by
  have hzlen : (X.zip Y).length = X.length := by
    rw [List.length_zip, ← hXY, min_self]
  have hzlen' : (X'.zip Y').length = X'.length := by
    rw [List.length_zip, ← hXY', min_self]
  have hlen_eq : X.length = X'.length := by
    rw [← hzlen, ← hzlen', hperm.length_eq]
  unfold pareto_frontier
  rw [if_pos hXY, if_pos hXY']
  by_cases h0 : X.length = 0
  · rw [if_pos h0, if_pos (hlen_eq ▸ h0)]
  · rw [if_neg h0, if_neg (by rw [← hlen_eq]; exact h0)]
    have hsort_eq : sortPairs mX (X.zip Y) = sortPairs mX (X'.zip Y') := by
      apply List.eq_of_perm_of_sorted (r := pairLe mX)
      · exact (List.perm_insertionSort _ _).trans
          (hperm.trans (List.perm_insertionSort _ _).symm)
      · exact List.sorted_insertionSort _ _
      · exact List.sorted_insertionSort _ _
    rw [hsort_eq]

theorem pareto_frontier_perm_invariant_witness :
    pareto_frontier [(1 : ℚ), 2] [(3 : ℚ), 4] true true =
      pareto_frontier [(2 : ℚ), 1] [(4 : ℚ), 3] true true :=
  pareto_frontier_perm_invariant [1, 2] [3, 4] [2, 1] [4, 3] true true
    (by decide) (by decide) (by decide)

/-- C6: looking the indices returned by `pareto_ix` back up in the input
sequences reproduces, element by element and in order, exactly the list
`pareto_frontier` returns (including agreement of the failure and empty
cases). -/
theorem pareto_ix_refines_pareto_frontier (X Y : List ℚ) (mX mY : Bool) :
    (pareto_ix X Y mX mY).map
        (fun ixs => ixs.map (fun i => (X.getD i 0, Y.getD i 0))) =
      pareto_frontier X Y mX mY := by
  unfold pareto_ix pareto_frontier
  by_cases hlen : X.length = Y.length
  · rw [if_pos hlen, if_pos hlen]
    by_cases h0 : X.length = 0
    · rw [if_pos h0, if_pos h0]
      rfl
    · rw [if_neg h0, if_neg h0]
      simp only [Option.map_some']
      congr 1
      rw [sweepIx_map_eq mY _ _ none
          (fun t ht => by
            simp only [Prod.mk.injEq]
            exact mem_sortTriples_lookup X Y mX hlen t ht),
        sortTriples_map_proj,
        zip3_map_proj X Y _ hlen (by rw [List.length_range, hlen])]
  · rw [if_neg hlen, if_neg hlen]
    rfl

end Pareto

namespace Pareto

/-! ### Query layer lemmas and claims -/

theorem lookup_x_eq_none_iff (P : Table) (x0 : ℚ) :
    lookup_x P x0 = none ↔
      (P.xs.zip P.ys).filter (fun p => decide (p.1 ≤ x0)) = [] := by
  unfold lookup_x
  cases hs : (P.xs.zip P.ys).filter (fun p => decide (p.1 ≤ x0)) with
  | nil => simp
  | cons p rest => simp

theorem lookup_y_eq_none_iff (P : Table) (y0 : ℚ) :
    lookup_y P y0 = none ↔
      (P.xs.zip P.ys).filter (fun p => decide (y0 ≤ p.2)) = [] := by
  unfold lookup_y
  cases hs : (P.xs.zip P.ys).filter (fun p => decide (y0 ≤ p.2)) with
  | nil => simp
  | cons p rest => simp

theorem lookup_x_eq_some (P : Table) (x0 v : ℚ) (h : lookup_x P x0 = some v) :
    (∃ p ∈ P.xs.zip P.ys, p.1 ≤ x0 ∧ p.2 = v) ∧
    (∀ p ∈ P.xs.zip P.ys, p.1 ≤ x0 → p.2 ≤ v) := by
  unfold lookup_x at h
  cases hs : (P.xs.zip P.ys).filter (fun p => decide (p.1 ≤ x0)) with
  | nil =>
    rw [hs] at h
    exact absurd h (by simp)
  | cons p rest =>
    rw [hs] at h
    have hv : (argmaxY p rest).2 = v := Option.some.inj h
    obtain ⟨hmem, hseed, hall⟩ := argmaxY_spec rest p
    have hr_mem : argmaxY p rest ∈ p :: rest := by
      rcases hmem with e | e
      · rw [e]; exact List.mem_cons_self _ _
      · exact List.mem_cons_of_mem _ e
    have hr_filter :
        argmaxY p rest ∈ (P.xs.zip P.ys).filter (fun p => decide (p.1 ≤ x0)) := by
      rw [hs]; exact hr_mem
    have hr := List.mem_filter.mp hr_filter
    constructor
    · exact ⟨argmaxY p rest, hr.1, by simpa using hr.2, hv⟩
    · intro q hq hqle
      have hq_filter : q ∈ (P.xs.zip P.ys).filter (fun p => decide (p.1 ≤ x0)) :=
        List.mem_filter.mpr ⟨hq, by simpa using hqle⟩
      rw [hs] at hq_filter
      rcases List.mem_cons.mp hq_filter with e | e
      · rw [e]
        exact hv ▸ hseed
      · exact hv ▸ hall q e

theorem lookup_y_eq_some (P : Table) (y0 w : ℚ) (h : lookup_y P y0 = some w) :
    (∃ p ∈ P.xs.zip P.ys, y0 ≤ p.2 ∧ p.1 = w) ∧
    (∀ p ∈ P.xs.zip P.ys, y0 ≤ p.2 → w ≤ p.1) := by
  unfold lookup_y at h
  cases hs : (P.xs.zip P.ys).filter (fun p => decide (y0 ≤ p.2)) with
  | nil =>
    rw [hs] at h
    exact absurd h (by simp)
  | cons p rest =>
    rw [hs] at h
    have hw : (argminX p rest).1 = w := Option.some.inj h
    obtain ⟨hmem, hseed, hall⟩ := argminX_spec rest p
    have hr_mem : argminX p rest ∈ p :: rest := by
      rcases hmem with e | e
      · rw [e]; exact List.mem_cons_self _ _
      · exact List.mem_cons_of_mem _ e
    have hr_filter :
        argminX p rest ∈ (P.xs.zip P.ys).filter (fun p => decide (y0 ≤ p.2)) := by
      rw [hs]; exact hr_mem
    have hr := List.mem_filter.mp hr_filter
    constructor
    · exact ⟨argminX p rest, hr.1, by simpa using hr.2, hw⟩
    · intro q hq hqle
      have hq_filter : q ∈ (P.xs.zip P.ys).filter (fun p => decide (y0 ≤ p.2)) :=
        List.mem_filter.mpr ⟨hq, by simpa using hqle⟩
      rw [hs] at hq_filter
      rcases List.mem_cons.mp hq_filter with e | e
      · rw [e]
        exact hw ▸ hseed
      · exact hw ▸ hall q e

/-- C7: `lookup_x x` answers with the *maximum* `y` among the original
rows whose `x`-coordinate is `≤ x`, and with the NaN sentinel (`none`)
exactly when no row qualifies; dually `lookup_y y` answers with the
*minimum* `x` among rows whose `y`-coordinate is `≥ y`, same sentinel on
an empty match. -/
theorem pareto_lookup_spec (P : Table) (x0 y0 : ℚ) :
    ((lookup_x P x0 = none) ↔ ∀ p ∈ P.xs.zip P.ys, ¬ p.1 ≤ x0) ∧
    (∀ v, lookup_x P x0 = some v →
      (∃ p ∈ P.xs.zip P.ys, p.1 ≤ x0 ∧ p.2 = v) ∧
      (∀ p ∈ P.xs.zip P.ys, p.1 ≤ x0 → p.2 ≤ v)) ∧
    ((lookup_y P y0 = none) ↔ ∀ p ∈ P.xs.zip P.ys, ¬ y0 ≤ p.2) ∧
    (∀ w, lookup_y P y0 = some w →
      (∃ p ∈ P.xs.zip P.ys, y0 ≤ p.2 ∧ p.1 = w) ∧
      (∀ p ∈ P.xs.zip P.ys, y0 ≤ p.2 → w ≤ p.1)) := by
  refine ⟨?_, fun v hv => lookup_x_eq_some P x0 v hv, ?_,
    fun w hw => lookup_y_eq_some P y0 w hw⟩
  · rw [lookup_x_eq_none_iff, List.filter_eq_nil_iff]
    simp
  · rw [lookup_y_eq_none_iff, List.filter_eq_nil_iff]
    simp

theorem pareto_lookup_spec_witness :
    (∃ p ∈ List.zip [(0 : ℚ), 1, 2] [(0 : ℚ), 1, 2], p.1 ≤ 1 ∧ p.2 = 1) ∧
    (∀ p ∈ List.zip [(0 : ℚ), 1, 2] [(0 : ℚ), 1, 2], p.1 ≤ 1 → p.2 ≤ 1) :=
  (pareto_lookup_spec
      ⟨[0, 1, 2], [0, 1, 2], pareto_ix [0, 1, 2] [0, 1, 2] true true⟩ 1 1).2.1
    1 (by decide)

/-- C9: construction of the query layer succeeds exactly when every
supplied coordinate is finite; a NaN or infinity anywhere makes
`init` fail (`NonFiniteInput`) before any query exists.  The query
functions themselves are defined over the constructed table and perform
no finiteness check. -/
theorem pareto_init_finite_check (xs ys : List PFloat) :
    (init xs ys).isSome ↔ ((∀ v ∈ xs, v.isFinite) ∧ (∀ v ∈ ys, v.isFinite)) := by
  unfold init
  split_ifs with h
  · simp only [Option.isSome_some, true_iff]
    simpa [List.all_eq_true, Bool.and_eq_true] using h
  · simp only [Option.isSome_none, Bool.false_eq_true, false_iff]
    intro hc
    apply h
    rw [Bool.and_eq_true, List.all_eq_true, List.all_eq_true]
    exact hc

end Pareto

namespace Pareto

/-- Comparison on the `x` key alone (descending if `maxX`), as the spec
describes the sort step. -/
def xKeyLe (mX : Bool) (p q : ℚ × ℚ) : Prop :=
  match mX with
  | true => q.1 ≤ p.1
  | false => p.1 ≤ q.1

instance (mX : Bool) : DecidableRel (xKeyLe mX) := fun p q =>
  match mX with
  | true => inferInstanceAs (Decidable (q.1 ≤ p.1))
  | false => inferInstanceAs (Decidable (p.1 ≤ q.1))

/-- Second definition following the spec's words for the sort step
(C3): sort the paired points *stably by the `x` key alone* — descending
if `maxX` else ascending, points with equal `x` keeping their relative
input order — then run the same sweep.  `List.insertionSort` is stable,
so it realises the spec's stable key sort.  To be compared with
`pareto_frontier`, which sorts by the full `(x, y)` tuple. -/
def pareto_frontier_specStable (X Y : List ℚ) (mX mY : Bool) :
    Option (List (ℚ × ℚ)) :=
  if X.length = Y.length then
    if X.length = 0 then some []
    else some (sweep mY ((X.zip Y).insertionSort (xKeyLe mX)) none)
  else none

/-- Whether a point with `x`-coordinate `x` belongs to an `x`-tie group
that has already had a point pass the running-best comparison: the
group state records the previous point's `x` and that flag, which
resets when the group changes. -/
def groupTaken (x : ℚ) : Option (ℚ × Bool) → Bool
  | some (gx, t) => if gx = x then t else false
  | none => false

/-- Second definition following the amended claim's words for the sweep
(C3): walk the sorted points carrying the running best `y` (updated at
every point whose `y` passes the direction comparison, appended or not)
and the current `x`-tie group's state; retain a point exactly when its
`y` passes the running best and it is the *first* point of its tie
group to do so.  To be compared with `sweep`, which suppresses
repeats through `lastx` instead. -/
def sweepRetainFirst (mY : Bool) :
    List (ℚ × ℚ) → Option ℚ → Option (ℚ × Bool) → List (ℚ × ℚ)
  | [], _, _ => []
  | (x, y) :: rest, none, group =>
      (if groupTaken x group then [] else [(x, y)]) ++
        sweepRetainFirst mY rest (some y) (some (x, true))
  | (x, y) :: rest, some b, group =>
      if dirGe mY y b then
        (if groupTaken x group then [] else [(x, y)]) ++
          sweepRetainFirst mY rest (some y) (some (x, true))
      else
        sweepRetainFirst mY rest (some b) (some (x, groupTaken x group))

/-- Second definition following the amended claim's words end to end
(C3): sort by the full tuple, then retain within each `x`-tie group the
first point in that order whose `y` passes the running-best comparison. -/
def pareto_frontier_specRetain (X Y : List ℚ) (mX mY : Bool) :
    Option (List (ℚ × ℚ)) :=
  if X.length = Y.length then
    if X.length = 0 then some []
    else some (sweepRetainFirst mY (sortPairs mX (X.zip Y)) none none)
  else none

/-- C3 counterexample: on `X = [1, 1], Y = [3, 5]` with
`maxX = maxY = true`, the spec's stable sort keyed on `x` keeps the
input order `[(1, 3), (1, 5)]`, whose sweep retains `(1, 3)`; the
implementation sorts by the full tuple, getting `[(1, 5), (1, 3)]`,
whose sweep retains `(1, 5)`.  The two disagree. -/
theorem pareto_sort_stable_cex :
    pareto_frontier_specStable [1, 1] [3, 5] true true = some [(1, 3)] ∧
    pareto_frontier [1, 1] [3, 5] true true = some [(1, 5)] ∧
    pareto_frontier_specStable [1, 1] [3, 5] true true ≠
      pareto_frontier [1, 1] [3, 5] true true := by
  decide

/-- On a sorted list, the `lastx` mechanism of `sweep` coincides with
the spec's first-passing-point-per-tie-group retention policy.  The
invariant relating the two states: the code's `lastx` is `lx`, the
spec's group state is `(gx, t)`, and (i) the flag can only be set while
still inside `lastx`'s tie group, (ii) if `lastx`'s value still occurs
ahead, the walk is still inside that group with the flag set, and
(iii) `lx` sorts no worse than every remaining `x`. -/
theorem sweepRetainFirst_eq_sweep (mX mY : Bool) :
    ∀ (l : List (ℚ × ℚ)) (lx ly gx : ℚ) (t : Bool),
      l.Sorted (pairLe mX) →
      (t = true → gx = lx) →
      (∀ q ∈ l, q.1 = lx → gx = lx ∧ t = true) →
      (∀ q ∈ l, dirGe mX lx q.1) →
      sweepRetainFirst mY l (some ly) (some (gx, t)) = sweep mY l (some (lx, ly)) := by
  intro l
  induction l with
  | nil => intro lx ly gx t _ _ _ _; rfl
  | cons a rest ih =>
    obtain ⟨x, y⟩ := a
    intro lx ly gx t hsort hT hLx hOrd
    obtain ⟨hhead, htail⟩ := List.sorted_cons.mp hsort
    have hiff : lx = x ↔ (if gx = x then t else false) = true := by
      constructor
      · intro he
        obtain ⟨hg, ht⟩ := hLx (x, y) (List.mem_cons_self _ _) he.symm
        rw [if_pos (hg.trans he)]
        exact ht
      · intro ht
        by_cases hg : gx = x
        · rw [if_pos hg] at ht
          exact (hT ht).symm.trans hg
        · rw [if_neg hg] at ht
          exact absurd ht (by simp)
    simp only [sweepRetainFirst, sweep, groupTaken]
    by_cases hpass : dirGe mY y ly
    · rw [if_pos hpass, if_pos hpass]
      have hrec : sweepRetainFirst mY rest (some y) (some (x, true)) =
          sweep mY rest (some (x, y)) :=
        ih x y x true htail (fun _ => rfl) (fun q _ _ => ⟨rfl, rfl⟩)
          (fun q hq => pairLe_fst (hhead q hq))
      rw [hrec]
      congr 1
      by_cases hlxx : lx = x
      · rw [if_pos (hiff.mp hlxx), if_neg (not_not_intro hlxx)]
      · rw [if_neg (fun hc => hlxx (hiff.mpr hc)), if_pos hlxx]
    · rw [if_neg hpass, if_neg hpass]
      apply ih lx ly x (if gx = x then t else false) htail
      · intro ht
        exact (hiff.mpr ht).symm
      · intro q hq hqx
        have h1 : dirGe mX lx x := hOrd (x, y) (List.mem_cons_self _ _)
        have h2 : dirGe mX x lx := by
          have h3 := pairLe_fst (hhead q hq)
          rw [hqx] at h3
          exact h3
        have hxl : x = lx := dirGe_antisymm h2 h1
        exact ⟨hxl, hiff.mp hxl.symm⟩
      · intro q hq
        exact hOrd q (List.mem_cons_of_mem _ hq)

/-- From the sentinel states, the retention policy and the code's sweep
agree on every sorted list. -/
theorem sweepRetainFirst_none_eq_sweep (mX mY : Bool) :
    ∀ (l : List (ℚ × ℚ)), l.Sorted (pairLe mX) →
      sweepRetainFirst mY l none none = sweep mY l none := by
  intro l hsort
  match l with
  | [] => rfl
  | (x, y) :: rest =>
    obtain ⟨hhead, htail⟩ := List.sorted_cons.mp hsort
    simp only [sweepRetainFirst, sweep, groupTaken]
    rw [if_neg (by simp)]
    rw [sweepRetainFirst_eq_sweep mX mY rest x y x true htail (fun _ => rfl)
      (fun q _ _ => ⟨rfl, rfl⟩) (fun q hq => pairLe_fst (hhead q hq))]
    rfl

/-- C3 (amended): the paired points are sorted by the *full*
lexicographic tuple order — descending if `maxX` else ascending — so
ties in `x` are ordered by `y` (descending if `maxX` else ascending),
not by input position; `pareto_ix` sorts its `(x, y, index)` triples by
the same full-tuple order, breaking `(x, y)` ties by index.  The sweep
then retains within each `x`-tie group exactly the first point in that
lexicographic order whose `y` passes the running-best comparison: the
whole function agrees with `pareto_frontier_specRetain`, which
implements that retention policy directly. -/
theorem pareto_sort_lex_characterization (X Y : List ℚ) (mX mY : Bool) :
    (sortPairs mX (X.zip Y)).Perm (X.zip Y) ∧
    List.Sorted (fun p q : ℚ × ℚ =>
        match mX with
        | true => q.1 < p.1 ∨ (q.1 = p.1 ∧ q.2 ≤ p.2)
        | false => p.1 < q.1 ∨ (p.1 = q.1 ∧ p.2 ≤ q.2))
      (sortPairs mX (X.zip Y)) ∧
    (sortTriples mX (X.zip (Y.zip (List.range X.length)))).Perm
      (X.zip (Y.zip (List.range X.length))) ∧
    List.Sorted (tripLe mX) (sortTriples mX (X.zip (Y.zip (List.range X.length)))) ∧
    pareto_frontier_specRetain X Y mX mY = pareto_frontier X Y mX mY := by
  refine ⟨List.perm_insertionSort _ _, ?_, List.perm_insertionSort _ _,
    List.sorted_insertionSort _ _, ?_⟩
  · have he : (fun p q : ℚ × ℚ =>
        match mX with
        | true => q.1 < p.1 ∨ (q.1 = p.1 ∧ q.2 ≤ p.2)
        | false => p.1 < q.1 ∨ (p.1 = q.1 ∧ p.2 ≤ q.2)) = pairLe mX := by
      funext p q
      cases mX <;> rfl
    rw [he]
    exact List.sorted_insertionSort _ _
  · unfold pareto_frontier_specRetain pareto_frontier
    by_cases hlen : X.length = Y.length
    · rw [if_pos hlen, if_pos hlen]
      by_cases h0 : X.length = 0
      · rw [if_pos h0, if_pos h0]
      · rw [if_neg h0, if_neg h0]
        have hs : (sortPairs mX (X.zip Y)).Sorted (pairLe mX) :=
          List.sorted_insertionSort (pairLe mX) (X.zip Y)
        rw [sweepRetainFirst_none_eq_sweep mX mY _ hs]
    · rw [if_neg hlen, if_neg hlen]

end Pareto
